import Mathlib

/-!
Shallow embedding of the release synthesis engine of
terraform-plugin-proto-go (src/generate.go): version catalog discovery,
the release ledger gate, the recursive directory-to-git-tree builder and
the per-version synthesis loop, together with proofs of the spec claims.
String operations are carried out on the underlying character lists so
that every definition evaluates by kernel reduction.
-/

/-- Protocol version with major, minor and build components (spec section 3,
the go-versions Version triple as used by generate.go). -/
structure Version where
  major : Nat
  minor : Nat
  build : Nat
deriving DecidableEq, Repr

/-- Character list split on the dot separator, used to model version
string parsing. -/
def splitOnDot : List Char → List (List Char)
  | [] => [[]]
  | c :: rest =>
    if c = '.' then [] :: splitOnDot rest
    else
      match splitOnDot rest with
      | [] => [[c]]
      | h :: t => (c :: h) :: t

/-- Decimal digit string reading: all characters must be digits and the
string must be nonempty, otherwise no number is read. -/
def digitsToNat? (cs : List Char) : Option Nat :=
  if cs ≠ [] ∧ ∀ c ∈ cs, c.isDigit then
    some (cs.foldl (fun a c => a * 10 + (c.toNat - 48)) 0)
  else none

/-- Modelled from the spec: version parsing done by the external
go-versions library (not under src/). Spec section 3: versions are parsed
from strings of the form major.minor (build defaults to 0) or
major.minor.build; a string missing major or minor is rejected, not
coerced. -/
def parseVersion (s : String) : Option Version :=
  match (splitOnDot s.data).map digitsToNat? with
  | [some ma, some mi] => some ⟨ma, mi, 0⟩
  | [some ma, some mi, some bu] => some ⟨ma, mi, bu⟩
  | _ => none

/-- Modelled from the spec: ordering of Versions (spec section 3):
lexicographic on the components major, minor, build. -/
def Version.lt (a b : Version) : Bool :=
  decide (a.major < b.major) ||
    (decide (a.major = b.major) &&
      (decide (a.minor < b.minor) ||
        (decide (a.minor = b.minor) && decide (a.build < b.build))))

/-- Modelled from the spec: rendering of a Version by the external
go-versions String method, per the naming convention of spec section 6:
major.minor.build. -/
def Version.verString (v : Version) : String :=
  toString v.major ++ "." ++ toString v.minor ++ "." ++ toString v.build

/-- Tag name computed in createStableTags (src/generate.go line 159):
the letter v followed by the rendered version. -/
def tagNameFor (v : Version) : String :=
  "v" ++ v.verString

/-- Commit message built in createStableTags (src/generate.go line 245). -/
def commitMessageFor (v : Version) : String :=
  "Auto-generated Go module for Terraform plugin protocol v" ++
    toString v.major ++ "." ++ toString v.minor

/-- Filter and parse of one directory entry name in
readProtoVersionBlobRefs (src/generate.go lines 141 to 150): keep names
with the tfplugin prefix and the .proto suffix whose middle part, with a
synthetic .0 appended, parses as a Version. -/
def protoEntryVersion (name : String) : Option Version :=
  if ("tfplugin".data.isPrefixOf name.data) && (".proto".data.isSuffixOf name.data) then
    parseVersion ⟨(name.data.drop 8).take ((name.data.drop 8).length - 6) ++ ".0".data⟩
  else none

/-- Go map update as used by readProtoVersionBlobRefs: assigning to a key
overwrites any earlier value stored under the same key. Blob hashes are
opaque content references, modelled as natural numbers. -/
def mapInsert (m : List (Version × Nat)) (v : Version) (h : Nat) :
    List (Version × Nat) :=
  (m.filter (fun p => decide (p.1 ≠ v))) ++ [(v, h)]

/-- One iteration of the catalog discovery loop: a matching, parsable
name stores its blob hash under the parsed version, any other entry is
skipped. -/
def catalogStep (acc : List (Version × Nat)) (e : String × Nat) :
    List (Version × Nat) :=
  match protoEntryVersion e.1 with
  | some v => mapInsert acc v e.2
  | none => acc

/-- Catalog discovery loop of readProtoVersionBlobRefs (src/generate.go
lines 139 to 154), applied to the entry names and blob hashes of the
docs/plugin-protocol tree of one upstream snapshot. -/
def readProtoVersionBlobRefs (entries : List (String × Nat)) :
    List (Version × Nat) :=
  entries.foldl catalogStep []

/-- Git signature (go-git object.Signature): name, email and timestamp. -/
structure Sig where
  name : String
  email : String
  whenT : Nat
deriving DecidableEq, Repr

/-- Content addressed git objects built by the synthesizer. In this model
a hash is identified with the object it addresses, reflecting that the
SHA1 of the canonical encoding is an injective function of the object
content: identical content gives identical hash, distinct content gives
distinct hash. A tree entry is a name, a file mode and a child hash. -/
inductive GitObj where
  | blob (content : List Nat)
  | tree (entries : List (String × Nat × GitObj))
  | commit (treeH : GitObj) (author committer : Sig) (message : String)

/-- Annotated tag object written by go-git CreateTag: target commit,
tagger identity and message. -/
structure TagObj where
  target : GitObj
  tagger : Sig
  message : String

/-- Staged release directory entry as ioutil.ReadDir exposes it to
slurpDirIntoGitTree: a regular file with an executable bit and content
bytes, or a subdirectory with its own named entries. -/
inductive FsEntry where
  | file (exec : Bool) (content : List Nat)
  | dir (entries : List (String × FsEntry))

/-- File mode assigned by gitFileMode.NewFromOSFileMode for a regular
file, depending on the executable bit. -/
def fileModeOf (exec : Bool) : Nat :=
  if exec then 0o100755 else 0o100644

/-- File mode assigned by gitFileMode.NewFromOSFileMode for a
directory. -/
def dirMode : Nat := 0o40000

/-- Mode recorded in the parent tree entry for a staged entry. -/
def entryMode : FsEntry → Nat
  | .file exec _ => fileModeOf exec
  | .dir _ => dirMode

/-- Byte-wise less-or-equal on character lists: the file name order in
which ioutil.ReadDir returns directory entries. -/
def charListLe : List Char → List Char → Bool
  | [], _ => true
  | _ :: _, [] => false
  | a :: as, b :: bs =>
    if a = b then charListLe as bs
    else decide (a < b)

/-- Name ordering on directory entries, comparing only the names. -/
def entryLe {α : Type} (a b : String × α) : Prop :=
  charListLe a.1.data b.1.data = true

instance {α : Type} : DecidableRel (fun a b : String × α => entryLe a b) :=
  fun a b => inferInstanceAs (Decidable (charListLe a.1.data b.1.data = true))

theorem charListLe_total : ∀ a b, charListLe a b = true ∨ charListLe b a = true := by
  intro a
  induction a with
  | nil => intro b; left; rfl
  | cons x xs ih =>
    intro b
    cases b with
    | nil => right; rfl
    | cons y ys =>
      by_cases hxy : x = y
      · subst hxy
        simpa [charListLe] using ih ys
      · rcases lt_or_gt_of_ne hxy with h | h
        · left; simp [charListLe, hxy, h]
        · right
          have : y ≠ x := fun e => hxy e.symm
          simp [charListLe, this, h]

theorem charListLe_trans :
    ∀ a b c, charListLe a b = true → charListLe b c = true → charListLe a c = true := by
  intro a
  induction a with
  | nil => intro b c _ _; rfl
  | cons x xs ih =>
    intro b c hab hbc
    cases b with
    | nil => simp [charListLe] at hab
    | cons y ys =>
      cases c with
      | nil => simp [charListLe] at hbc
      | cons z zs =>
        by_cases hxy : x = y <;> by_cases hyz : y = z
        · subst hxy; subst hyz
          simp only [charListLe, if_pos rfl] at hab hbc ⊢
          exact ih _ _ hab hbc
        · subst hxy
          simp only [charListLe, if_pos rfl, if_neg hyz] at hbc ⊢
          exact hbc
        · subst hyz
          simp only [charListLe, if_pos rfl, if_neg hxy] at hab ⊢
          exact hab
        · simp only [charListLe, if_neg hxy, decide_eq_true_eq] at hab
          simp only [charListLe, if_neg hyz, decide_eq_true_eq] at hbc
          have hxz : x < z := lt_trans hab hbc
          have : x ≠ z := ne_of_lt hxz
          simp [charListLe, this, hxz]

theorem charListLe_antisymm :
    ∀ a b, charListLe a b = true → charListLe b a = true → a = b := by
  intro a
  induction a with
  | nil =>
    intro b _ hba
    cases b with
    | nil => rfl
    | cons y ys => simp [charListLe] at hba
  | cons x xs ih =>
    intro b hab hba
    cases b with
    | nil => simp [charListLe] at hab
    | cons y ys =>
      by_cases hxy : x = y
      · subst hxy
        simp only [charListLe, if_pos rfl] at hab hba
        rw [ih ys hab hba]
      · have hyx : y ≠ x := fun e => hxy e.symm
        simp only [charListLe, if_neg hxy, decide_eq_true_eq] at hab
        simp only [charListLe, if_neg hyx, decide_eq_true_eq] at hba
        exact absurd hba (lt_asymm hab)

instance {α : Type} : IsTotal (String × α) (fun a b => entryLe a b) :=
  ⟨fun a b => charListLe_total a.1.data b.1.data⟩

instance {α : Type} : IsTrans (String × α) (fun a b => entryLe a b) :=
  ⟨fun _ _ _ h1 h2 => charListLe_trans _ _ _ h1 h2⟩

/-- Name ordering applied by ioutil.ReadDir, which returns directory
entries sorted ascending by file name. -/
def sortByName {α : Type} (l : List (String × α)) : List (String × α) :=
  l.insertionSort (fun a b => entryLe a b)

theorem sizeOf_sortByName {α : Type} [SizeOf α] (l : List (String × α)) :
    sizeOf (sortByName l) = sizeOf l :=
  List.Perm.sizeOf_eq_sizeOf (List.perm_insertionSort _ l)

mutual

/-- Pure content hash of a staged entry, exactly the object that
slurpDirIntoGitTree (src/generate.go lines 274 to 337) persists for it: a
blob carries its bytes; a tree carries its child entries in ReadDir name
order, each with its mode and recursive hash. -/
def entryHash : FsEntry → GitObj
  | .file _ c => .blob c
  | .dir es => .tree (hashEntriesList (sortByName es))
termination_by e => sizeOf e
decreasing_by
  simp_wf
  rw [sizeOf_sortByName]
  omega

/-- Tree entry list built by the loop of slurpDirIntoGitTree over the
already sorted directory listing. -/
def hashEntriesList : List (String × FsEntry) → List (String × Nat × GitObj)
  | [] => []
  | (n, e) :: rest => (n, entryMode e, entryHash e) :: hashEntriesList rest
termination_by l => sizeOf l
decreasing_by
  all_goals simp_wf <;> omega

end

example : parseVersion "5.2" = some ⟨5, 2, 0⟩ := by decide

example : parseVersion "5" = none := by decide

example : tagNameFor ⟨5, 1, 0⟩ = "v5.1.0" := by decide

example :
    readProtoVersionBlobRefs
      [("tfplugin5.proto", 11), ("README.md", 12), ("tfplugin.proto", 13)] =
      [(⟨5, 0, 0⟩, 11)] := by decide

example :
    entryHash (.dir [("b.txt", .file false [1]), ("a.txt", .file false [2])]) =
      .tree [("a.txt", 0o100644, .blob [2]), ("b.txt", 0o100644, .blob [1])] := by
  simp [entryHash, hashEntriesList, sortByName, List.insertionSort, List.orderedInsert,
    entryLe, charListLe, entryMode, fileModeOf]

/-- Write event in the target repository store, recorded in chronological
order. -/
inductive Event where
  | writeObj (o : GitObj)
  | writeTag (name : String) (target : GitObj)

/-- State of the target repository: stored objects, tag refs (each with
its annotated tag object) and the chronological trace of persisted
writes. -/
structure RepoState where
  objects : List GitObj
  tags : List (String × TagObj)
  trace : List Event

/-- Three way outcome of the go-git Tag lookup in createStableTags
(src/generate.go lines 160 to 165): the tag exists (a nil error), the tag
is absent (ErrTagNotFound), or the lookup itself failed with some other
error. -/
inductive TagLookup where
  | found
  | notFound
  | failure
deriving DecidableEq

/-- Error returns of createStableTags, one per distinct failure exit of
the loop body (src/generate.go lines 160 to 263). Staging, blob reading
and the external protoc and go tool invocations (lines 167 to 229) are
all collapsed into the generation collaborator, per spec section 6. -/
inductive Err where
  | lookupFailed (tagName : String)
  | genFailed (v : Version)
  | treeWriteFailed (v : Version)
  | commitWriteFailed (v : Version)
  | tagWriteFailed (v : Version)

/-- Environment of one synthesis run: the generation collaborator (which
materializes the staged module layout for a version and its proto blob
reference, running the external tools, and returns the finished staged
directory or fails), the wall clock time stamped into the commit
signature, and fault oracles saying which tag lookups, object writes and
tag writes fail at the storage level. -/
structure Cfg where
  gen : Version → Nat → Option (List (String × FsEntry))
  now : Nat
  lookFault : String → Bool
  objFault : GitObj → Bool
  tagFault : String → Bool

/-- Tag presence by exact name in the target repository. -/
def hasTag (st : RepoState) (name : String) : Bool :=
  st.tags.any (fun p => p.1 == name)

/-- Result of the go-git Tag call for one name, including the modelled
possibility of a storage level lookup failure distinct from absence. -/
def tagLookup (cfg : Cfg) (st : RepoState) (name : String) : TagLookup :=
  if cfg.lookFault name then .failure
  else if hasTag st name then .found
  else .notFound

/-- SetEncodedObject on the target repository store: persist one object,
or fail per the fault oracle, leaving the state unchanged. -/
def putObj (cfg : Cfg) (st : RepoState) (o : GitObj) : Option RepoState :=
  if cfg.objFault o then none
  else some { st with objects := o :: st.objects, trace := st.trace ++ [.writeObj o] }

/-- CreateTag on the target repository (go-git): fails if the ref already
exists or the write faults; otherwise persists the annotated tag object
and its ref. -/
def createTag (cfg : Cfg) (st : RepoState) (name : String) (target : GitObj)
    (tagger : Sig) (message : String) : Option RepoState :=
  if cfg.tagFault name || hasTag st name then none
  else some { st with tags := (name, ⟨target, tagger, message⟩) :: st.tags,
                      trace := st.trace ++ [.writeTag name target] }

mutual

/-- Stateful slurpDirIntoGitTree (src/generate.go lines 274 to 337):
walk the directory entries in ReadDir name order, persist a blob for
each file and recursively a tree for each subdirectory, then encode and
persist the tree for this directory and return its hash. A none result
is an aborted build; writes made before the failure remain. -/
def slurpDirIntoGitTree (cfg : Cfg) (es : List (String × FsEntry)) (st : RepoState) :
    RepoState × Option GitObj :=
  match slurpEntries cfg (sortByName es) st with
  | (st', none) => (st', none)
  | (st', some tentries) =>
    match putObj cfg st' (GitObj.tree tentries) with
    | none => (st', none)
    | some st'' => (st'', some (GitObj.tree tentries))
termination_by sizeOf es + 1
decreasing_by
  simp_wf
  rw [sizeOf_sortByName]
  omega

/-- Loop body of slurpDirIntoGitTree over the sorted directory listing,
accumulating the child entries of the tree under construction. -/
def slurpEntries (cfg : Cfg) :
    List (String × FsEntry) → RepoState → RepoState × Option (List (String × Nat × GitObj))
  | [], st => (st, some [])
  | (n, e) :: rest, st =>
    match e with
    | .file exec content =>
      match putObj cfg st (.blob content) with
      | none => (st, none)
      | some st' =>
        match slurpEntries cfg rest st' with
        | (st'', none) => (st'', none)
        | (st'', some ts) => (st'', some ((n, fileModeOf exec, .blob content) :: ts))
    | .dir sub =>
      match slurpDirIntoGitTree cfg sub st with
      | (st', none) => (st', none)
      | (st', some t) =>
        match slurpEntries cfg rest st' with
        | (st'', none) => (st'', none)
        | (st'', some ts) => (st'', some ((n, dirMode, t) :: ts))
termination_by l => sizeOf l
decreasing_by
  all_goals simp_wf <;> omega

end

/-- Fixed synthetic author and committer identity (src/generate.go lines
236 to 240), carrying the wall clock timestamp of the run. -/
def authorSig (now : Nat) : Sig :=
  { name := "The Terraform Team", email := "noreply@hashicorp.com", whenT := now }

/-- Body of the createStableTags loop for a single catalog entry
(src/generate.go lines 158 to 264): the ledger gate, generation, tree
building, commit creation and tag creation. Returns the repository state
reached and the error if this version aborted the run. -/
def processVersion (cfg : Cfg) (st : RepoState) (v : Version) (blobRef : Nat) :
    RepoState × Option Err :=
  match tagLookup cfg st (tagNameFor v) with
  | .found => (st, none)
  | .failure => (st, some (.lookupFailed (tagNameFor v)))
  | .notFound =>
    match cfg.gen v blobRef with
    | none => (st, some (.genFailed v))
    | some staged =>
      match slurpDirIntoGitTree cfg staged st with
      | (st', none) => (st', some (.treeWriteFailed v))
      | (st', some treeObj) =>
        match putObj cfg st'
            (GitObj.commit treeObj (authorSig cfg.now) (authorSig cfg.now)
              (commitMessageFor v)) with
        | none => (st', some (.commitWriteFailed v))
        | some st'' =>
          match createTag cfg st'' (tagNameFor v)
              (GitObj.commit treeObj (authorSig cfg.now) (authorSig cfg.now)
                (commitMessageFor v))
              (authorSig cfg.now) (commitMessageFor v) with
          | none => (st'', some (.tagWriteFailed v))
          | some stF => (stF, none)

/-- createStableTags (src/generate.go lines 157 to 268): iterate the
catalog entries; a skipped or fully released version continues the loop,
and any error aborts the whole run at once, keeping all earlier writes. -/
def createStableTags (cfg : Cfg) (st : RepoState) :
    List (Version × Nat) → RepoState × Option Err
  | [] => (st, none)
  | (v, h) :: rest =>
    match processVersion cfg st v h with
    | (st', none) => createStableTags cfg st' rest
    | (st', some e) => (st', some e)

/-- Commit recognizer on git objects. -/
def isCommitObj : GitObj → Bool
  | .commit .. => true
  | _ => false

/-- Trace ordering check: scanning the write trace chronologically while
accumulating the objects written so far, every commit write must follow
the write of its tree, and every tag write must follow the write of its
target, which must be a commit. -/
def wellOrdered : List GitObj → List Event → Prop
  | _, [] => True
  | w, .writeObj o :: rest =>
    (∀ t a c m, o = .commit t a c m → t ∈ w) ∧ wellOrdered (o :: w) rest
  | w, .writeTag _ target :: rest =>
    (target ∈ w ∧ isCommitObj target = true) ∧ wellOrdered w rest

/-- Repository integrity: every tag ref points at a commit object that is
present in the object store. -/
def tagsInv (st : RepoState) : Prop :=
  ∀ p ∈ st.tags, p.2.target ∈ st.objects ∧ isCommitObj p.2.target = true

/-- Growth relation on repository states: objects and tags only gain
entries and the trace only appends. -/
def grows (st st' : RepoState) : Prop :=
  (∃ os, st'.objects = os ++ st.objects) ∧
  (∃ ts, st'.tags = ts ++ st.tags) ∧
  (∃ tr, st'.trace = st.trace ++ tr)

theorem grows_refl (st : RepoState) : grows st st :=
  ⟨⟨[], rfl⟩, ⟨[], rfl⟩, ⟨[], by simp⟩⟩

theorem grows_trans {s1 s2 s3 : RepoState} (h1 : grows s1 s2) (h2 : grows s2 s3) :
    grows s1 s3 := by
  obtain ⟨⟨o1, ho1⟩, ⟨t1, ht1⟩, ⟨r1, hr1⟩⟩ := h1
  obtain ⟨⟨o2, ho2⟩, ⟨t2, ht2⟩, ⟨r2, hr2⟩⟩ := h2
  exact ⟨⟨o2 ++ o1, by simp [ho2, ho1]⟩, ⟨t2 ++ t1, by simp [ht2, ht1]⟩,
    ⟨r1 ++ r2, by simp [hr2, hr1]⟩⟩

theorem hasTag_of_grows {st st' : RepoState} {n : String}
    (hg : grows st st') (h : hasTag st n = true) : hasTag st' n = true := by
  obtain ⟨_, ⟨ts, hts⟩, _⟩ := hg
  simp only [hasTag, List.any_eq_true] at h ⊢
  obtain ⟨p, hp, he⟩ := h
  exact ⟨p, by simp [hts, hp], he⟩

theorem putObj_spec {cfg : Cfg} {st st' : RepoState} {o : GitObj}
    (h : putObj cfg st o = some st') :
    st'.objects = o :: st.objects ∧ st'.tags = st.tags ∧
      st'.trace = st.trace ++ [Event.writeObj o] := by
  unfold putObj at h
  by_cases hf : cfg.objFault o = true
  · simp [hf] at h
  · simp only [hf, Bool.false_eq_true, if_false, Option.some.injEq] at h
    subst h
    exact ⟨rfl, rfl, rfl⟩

theorem createTag_spec {cfg : Cfg} {st st' : RepoState} {name : String}
    {target : GitObj} {tagger : Sig} {message : String}
    (h : createTag cfg st name target tagger message = some st') :
    st'.tags = (name, ⟨target, tagger, message⟩) :: st.tags ∧
      st'.objects = st.objects ∧
      st'.trace = st.trace ++ [Event.writeTag name target] ∧
      hasTag st name = false := by
  unfold createTag at h
  by_cases hf : (cfg.tagFault name || hasTag st name) = true
  · simp [hf] at h
  · simp only [hf, Bool.false_eq_true, if_false, Option.some.injEq] at h
    subst h
    simp only [Bool.or_eq_true, not_or, Bool.not_eq_true] at hf
    exact ⟨rfl, rfl, rfl, hf.2⟩

theorem grows_of_putObj {cfg : Cfg} {st st' : RepoState} {o : GitObj}
    (h : putObj cfg st o = some st') : grows st st' := by
  obtain ⟨h1, h2, h3⟩ := putObj_spec h
  exact ⟨⟨[o], by simp [h1]⟩, ⟨[], by simp [h2]⟩, ⟨_, h3⟩⟩

theorem grows_of_createTag {cfg : Cfg} {st st' : RepoState} {name : String}
    {target : GitObj} {tagger : Sig} {message : String}
    (h : createTag cfg st name target tagger message = some st') : grows st st' := by
  obtain ⟨h1, h2, h3, _⟩ := createTag_spec h
  exact ⟨⟨[], by simp [h2]⟩, ⟨[(name, ⟨target, tagger, message⟩)], by simp [h1]⟩, ⟨_, h3⟩⟩

/-- Benign trace slice: only plain object writes of blobs and trees, as
produced by the directory builder. -/
def benignTrace (tr : List Event) : Prop :=
  ∀ e ∈ tr, ∃ o, e = Event.writeObj o ∧ isCommitObj o = false

/-- Characterization of slurpDirIntoGitTree and slurpEntries, proved by
strong induction on the size of the directory: the tags are untouched,
objects only grow, the trace grows by a benign slice, and on success the
returned hash is the pure content hash of the directory, its write event
is in the slice and the tree object is stored. -/
theorem slurp_spec_bounded (cfg : Cfg) : ∀ (bound : Nat),
    (∀ (es : List (String × FsEntry)) (st : RepoState), sizeOf es < bound →
      ∀ st' r, slurpDirIntoGitTree cfg es st = (st', r) →
        st'.tags = st.tags ∧ (∃ os, st'.objects = os ++ st.objects) ∧
        ∃ tr, st'.trace = st.trace ++ tr ∧ benignTrace tr ∧
          (∀ t, r = some t →
            t = entryHash (.dir es) ∧ Event.writeObj t ∈ tr ∧ t ∈ st'.objects)) ∧
    (∀ (l : List (String × FsEntry)) (st : RepoState), sizeOf l ≤ bound →
      ∀ st' r, slurpEntries cfg l st = (st', r) →
        st'.tags = st.tags ∧ (∃ os, st'.objects = os ++ st.objects) ∧
        ∃ tr, st'.trace = st.trace ++ tr ∧ benignTrace tr ∧
          (∀ ts, r = some ts → ts = hashEntriesList l)) := by
  intro bound
  induction bound using Nat.strong_induction_on with
  | _ bound ih =>
    constructor
    · -- one directory
      intro es st hsz st' r h
      have entIH := (ih (sizeOf es) hsz).2
      rcases hE : slurpEntries cfg (sortByName es) st with ⟨st1, r1⟩
      simp only [slurpDirIntoGitTree] at h
      rw [hE] at h
      have hbound : sizeOf (sortByName es) ≤ sizeOf es := by rw [sizeOf_sortByName]
      obtain ⟨he1, he2, tr, he3, he4, hres⟩ := entIH (sortByName es) st hbound st1 r1 hE
      cases r1 with
      | none =>
        simp only [] at h
        cases h
        exact ⟨he1, he2, tr, he3, he4, by intro t ht; cases ht⟩
      | some tentries =>
        simp only [] at h
        cases hP : putObj cfg st1 (GitObj.tree tentries) with
        | none =>
          rw [hP] at h
          simp only [] at h
          cases h
          exact ⟨he1, he2, tr, he3, he4, by intro t ht; cases ht⟩
        | some st2 =>
          rw [hP] at h
          simp only [] at h
          cases h
          obtain ⟨hp1, hp2, hp3⟩ := putObj_spec hP
          have hts : tentries = hashEntriesList (sortByName es) := hres tentries rfl
          refine ⟨by rw [hp2, he1], ?_, ?_⟩
          · obtain ⟨os, ho⟩ := he2
            exact ⟨GitObj.tree tentries :: os, by simp [hp1, ho]⟩
          · refine ⟨tr ++ [Event.writeObj (GitObj.tree tentries)], ?_, ?_, ?_⟩
            · simp [hp3, he3]
            · intro e he
              rcases List.mem_append.mp he with hh | hh
              · exact he4 e hh
              · simp only [List.mem_singleton] at hh
                exact ⟨GitObj.tree tentries, hh, rfl⟩
            · intro t ht
              have : t = GitObj.tree tentries := by cases ht; rfl
              subst this
              refine ⟨?_, by simp, by simp [hp1]⟩
              rw [hts]
              simp [entryHash]
    · -- the entry loop
      intro l st hsz st' r h
      cases l with
      | nil =>
        rw [slurpEntries] at h
        cases h
        refine ⟨rfl, ⟨[], rfl⟩, ⟨[], by simp, ?_, ?_⟩⟩
        · intro e he; cases he
        · intro ts hts
          simp only [Option.some.injEq] at hts
          subst hts
          simp [hashEntriesList]
      | cons p rest =>
        rcases p with ⟨nm, e⟩
        have hrest_lt : sizeOf rest < bound := by
          have h2 : sizeOf rest < sizeOf ((nm, e) :: rest) := by
            simp only [List.cons.sizeOf_spec, Prod.mk.sizeOf_spec]
            omega
          omega
        have restIH := (ih (sizeOf rest) hrest_lt).2 rest
        cases e with
        | file exec content =>
          rw [slurpEntries] at h
          cases hP : putObj cfg st (GitObj.blob content) with
          | none =>
            rw [hP] at h
            simp only [] at h
            cases h
            refine ⟨rfl, ⟨[], rfl⟩, ⟨[], by simp, ?_, ?_⟩⟩
            · intro e2 he2; cases he2
            · intro ts hts; cases hts
          | some st2 =>
            rw [hP] at h
            simp only [] at h
            obtain ⟨hp1, hp2, hp3⟩ := putObj_spec hP
            rcases hR : slurpEntries cfg rest st2 with ⟨st3, r3⟩
            rw [hR] at h
            obtain ⟨he1, he2, tr, he3, he4, hres⟩ := restIH st2 le_rfl st3 r3 hR
            cases r3 with
            | none =>
              simp only [] at h
              cases h
              refine ⟨by rw [he1, hp2], ?_, ?_⟩
              · obtain ⟨os, ho⟩ := he2
                exact ⟨os ++ [GitObj.blob content], by simp [ho, hp1]⟩
              · refine ⟨Event.writeObj (GitObj.blob content) :: tr,
                  by simp [he3, hp3], ?_, by intro ts hts; cases hts⟩
                intro e2 he2m
                rcases List.mem_cons.mp he2m with hh | hh
                · exact ⟨GitObj.blob content, hh, rfl⟩
                · exact he4 e2 hh
            | some ts0 =>
              simp only [] at h
              cases h
              refine ⟨by rw [he1, hp2], ?_, ?_⟩
              · obtain ⟨os, ho⟩ := he2
                exact ⟨os ++ [GitObj.blob content], by simp [ho, hp1]⟩
              · refine ⟨Event.writeObj (GitObj.blob content) :: tr,
                  by simp [he3, hp3], ?_, ?_⟩
                · intro e2 he2m
                  rcases List.mem_cons.mp he2m with hh | hh
                  · exact ⟨GitObj.blob content, hh, rfl⟩
                  · exact he4 e2 hh
                · intro ts hts
                  simp only [Option.some.injEq] at hts
                  subst hts
                  rw [hres ts0 rfl]
                  simp [hashEntriesList, entryHash, entryMode]
        | dir sub =>
          have hsub_bound : sizeOf sub + 1 < bound := by
            have h2 : sizeOf sub + 1 < sizeOf ((nm, FsEntry.dir sub) :: rest) := by
              simp only [List.cons.sizeOf_spec, Prod.mk.sizeOf_spec, FsEntry.dir.sizeOf_spec]
              omega
            omega
          have dirIH := (ih (sizeOf sub + 1) hsub_bound).1 sub
          rw [slurpEntries] at h
          rcases hD : slurpDirIntoGitTree cfg sub st with ⟨st2, r2⟩
          rw [hD] at h
          obtain ⟨hd1, hd2, trd, hd3, hd4, hdres⟩ := dirIH st (by omega) st2 r2 hD
          cases r2 with
          | none =>
            simp only [] at h
            cases h
            exact ⟨hd1, hd2, trd, hd3, hd4, by intro ts hts; cases hts⟩
          | some t =>
            simp only [] at h
            rcases hR : slurpEntries cfg rest st2 with ⟨st3, r3⟩
            rw [hR] at h
            obtain ⟨he1, he2, tre, he3, he4, hres⟩ := restIH st2 le_rfl st3 r3 hR
            cases r3 with
            | none =>
              simp only [] at h
              cases h
              refine ⟨by rw [he1, hd1], ?_, ?_⟩
              · obtain ⟨os1, ho1⟩ := hd2
                obtain ⟨os2, ho2⟩ := he2
                exact ⟨os2 ++ os1, by simp [ho2, ho1]⟩
              · refine ⟨trd ++ tre, by simp [he3, hd3], ?_, by intro ts hts; cases hts⟩
                intro e2 he2m
                rcases List.mem_append.mp he2m with hh | hh
                · exact hd4 e2 hh
                · exact he4 e2 hh
            | some ts0 =>
              simp only [] at h
              cases h
              refine ⟨by rw [he1, hd1], ?_, ?_⟩
              · obtain ⟨os1, ho1⟩ := hd2
                obtain ⟨os2, ho2⟩ := he2
                exact ⟨os2 ++ os1, by simp [ho2, ho1]⟩
              · refine ⟨trd ++ tre, by simp [he3, hd3], ?_, ?_⟩
                · intro e2 he2m
                  rcases List.mem_append.mp he2m with hh | hh
                  · exact hd4 e2 hh
                  · exact he4 e2 hh
                · intro ts hts
                  simp only [Option.some.injEq] at hts
                  subst hts
                  obtain ⟨hteq, _, _⟩ := hdres t rfl
                  rw [hres ts0 rfl, hteq]
                  simp [hashEntriesList, entryMode]

/-- Characterization of a slurpDirIntoGitTree call, instantiated from
the bounded statement. -/
theorem slurpDir_spec (cfg : Cfg) :
    ∀ (es : List (String × FsEntry)) (st : RepoState), ∀ st' r,
      slurpDirIntoGitTree cfg es st = (st', r) →
      st'.tags = st.tags ∧ (∃ os, st'.objects = os ++ st.objects) ∧
      ∃ tr, st'.trace = st.trace ++ tr ∧ benignTrace tr ∧
        (∀ t, r = some t →
          t = entryHash (.dir es) ∧ Event.writeObj t ∈ tr ∧ t ∈ st'.objects) :=
  fun es st st' r h =>
    (slurp_spec_bounded cfg (sizeOf es + 1)).1 es st (by omega) st' r h

/-- Under a fault free object write oracle the directory builder always
succeeds, returning the pure content hash, proved by strong induction on
the size of the directory. -/
theorem slurp_noFault_bounded (cfg : Cfg) (hof : ∀ o, cfg.objFault o = false) :
    ∀ (bound : Nat),
    (∀ (es : List (String × FsEntry)) (st : RepoState), sizeOf es < bound →
      ∃ st', slurpDirIntoGitTree cfg es st = (st', some (entryHash (.dir es)))) ∧
    (∀ (l : List (String × FsEntry)) (st : RepoState), sizeOf l ≤ bound →
      ∃ st', slurpEntries cfg l st = (st', some (hashEntriesList l))) := by
  intro bound
  induction bound using Nat.strong_induction_on with
  | _ bound ih =>
    have hput : ∀ st o, putObj cfg st o =
        some { st with objects := o :: st.objects,
                       trace := st.trace ++ [Event.writeObj o] } := by
      intro st o
      unfold putObj
      rw [hof o]
      simp
    constructor
    · intro es st hsz
      obtain ⟨st1, hE⟩ := (ih (sizeOf es) hsz).2 (sortByName es) st
        (by rw [sizeOf_sortByName])
      refine ⟨{ st1 with
          objects := GitObj.tree (hashEntriesList (sortByName es)) :: st1.objects,
          trace := st1.trace ++
            [Event.writeObj (GitObj.tree (hashEntriesList (sortByName es)))] }, ?_⟩
      simp only [slurpDirIntoGitTree]
      rw [hE]
      simp only []
      rw [hput]
      simp [entryHash]
    · intro l st hsz
      cases l with
      | nil => exact ⟨st, by rw [slurpEntries]; simp [hashEntriesList]⟩
      | cons p rest =>
        rcases p with ⟨nm, e⟩
        have hrest_lt : sizeOf rest < bound := by
          have h2 : sizeOf rest < sizeOf ((nm, e) :: rest) := by
            simp only [List.cons.sizeOf_spec, Prod.mk.sizeOf_spec]
            omega
          omega
        cases e with
        | file exec content =>
          obtain ⟨st2, hR⟩ := (ih (sizeOf rest) hrest_lt).2 rest
            { st with objects := GitObj.blob content :: st.objects,
                      trace := st.trace ++ [Event.writeObj (GitObj.blob content)] }
            le_rfl
          refine ⟨st2, ?_⟩
          rw [slurpEntries, hput]
          simp only []
          rw [hR]
          simp [hashEntriesList, entryHash, entryMode]
        | dir sub =>
          have hsub_bound : sizeOf sub + 1 < bound := by
            have h2 : sizeOf sub + 1 < sizeOf ((nm, FsEntry.dir sub) :: rest) := by
              simp only [List.cons.sizeOf_spec, Prod.mk.sizeOf_spec,
                FsEntry.dir.sizeOf_spec]
              omega
            omega
          obtain ⟨st2, hD⟩ := (ih (sizeOf sub + 1) hsub_bound).1 sub st (by omega)
          obtain ⟨st3, hR⟩ := (ih (sizeOf rest) hrest_lt).2 rest st2 le_rfl
          refine ⟨st3, ?_⟩
          rw [slurpEntries, hD]
          simp only []
          rw [hR]
          simp [hashEntriesList, entryMode]

/-- Fault free instantiation of the bounded success statement. -/
theorem slurpDir_noFault (cfg : Cfg) (hof : ∀ o, cfg.objFault o = false)
    (es : List (String × FsEntry)) (st : RepoState) :
    ∃ st', slurpDirIntoGitTree cfg es st = (st', some (entryHash (.dir es))) :=
  (slurp_noFault_bounded cfg hof (sizeOf es + 1)).1 es st (by omega)

/-- Objects accumulated from the write events of a trace, scanning
chronologically, on top of an initial collection. -/
def accWritten (w : List GitObj) : List Event → List GitObj
  | [] => w
  | Event.writeObj o :: rest => accWritten (o :: w) rest
  | Event.writeTag _ _ :: rest => accWritten w rest

theorem wellOrdered_append (t1 : List Event) :
    ∀ (w : List GitObj) (t2 : List Event),
      wellOrdered w (t1 ++ t2) ↔ wellOrdered w t1 ∧ wellOrdered (accWritten w t1) t2 := by
  induction t1 with
  | nil => intro w t2; simp [wellOrdered, accWritten]
  | cons e rest ih =>
    intro w t2
    cases e with
    | writeObj o =>
      simp only [List.cons_append, wellOrdered, accWritten, List.append_eq]
      rw [ih]
      simp [and_assoc]
    | writeTag n target =>
      simp only [List.cons_append, wellOrdered, accWritten, List.append_eq]
      rw [ih]
      simp [and_assoc]

theorem mem_accWritten_of_mem {x : GitObj} (t : List Event) :
    ∀ w, x ∈ w → x ∈ accWritten w t := by
  induction t with
  | nil => intro w h; exact h
  | cons e rest ih =>
    intro w h
    cases e with
    | writeObj o => exact ih (o :: w) (List.mem_cons_of_mem o h)
    | writeTag n target => exact ih w h

theorem mem_accWritten_of_writeObj {o : GitObj} (t : List Event) :
    ∀ w, Event.writeObj o ∈ t → o ∈ accWritten w t := by
  induction t with
  | nil => intro w h; cases h
  | cons e rest ih =>
    intro w h
    cases e with
    | writeObj o2 =>
      rcases List.mem_cons.mp h with h2 | h2
      · cases h2
        exact mem_accWritten_of_mem rest (o :: w) (List.mem_cons_self o w)
      · exact ih (o2 :: w) h2
    | writeTag n target =>
      rcases List.mem_cons.mp h with h2 | h2
      · cases h2
      · exact ih w h2

theorem wellOrdered_of_benign {tr : List Event} (hb : benignTrace tr) :
    ∀ w, wellOrdered w tr := by
  induction tr with
  | nil => intro w; trivial
  | cons e rest ih =>
    intro w
    obtain ⟨o, he, hc⟩ := hb e (List.mem_cons_self e rest)
    subst he
    refine ⟨?_, ih (fun e2 he2 => hb e2 (List.mem_cons_of_mem _ he2)) (o :: w)⟩
    intro t a c m heq
    rw [heq] at hc
    simp [isCommitObj] at hc

/-- Commit object built by createStableTags for one version from its
staged generation output (src/generate.go lines 236 to 246). -/
def commitFor (cfg : Cfg) (v : Version) (staged : List (String × FsEntry)) : GitObj :=
  GitObj.commit (entryHash (.dir staged)) (authorSig cfg.now) (authorSig cfg.now)
    (commitMessageFor v)

/-- Tag object built by createStableTags for one version
(src/generate.go lines 257 to 260). -/
def tagObjFor (cfg : Cfg) (v : Version) (staged : List (String × FsEntry)) : TagObj :=
  ⟨commitFor cfg v staged, authorSig cfg.now, commitMessageFor v⟩

theorem processVersion_grows {cfg : Cfg} {st st' : RepoState} {v : Version} {h : Nat}
    {r : Option Err} (hp : processVersion cfg st v h = (st', r)) : grows st st' := by
  unfold processVersion at hp
  cases hL : tagLookup cfg st (tagNameFor v) with
  | found => rw [hL] at hp; cases hp; exact grows_refl st
  | failure => rw [hL] at hp; cases hp; exact grows_refl st
  | notFound =>
    rw [hL] at hp
    simp only [] at hp
    cases hG : cfg.gen v h with
    | none => rw [hG] at hp; cases hp; exact grows_refl st
    | some staged =>
      rw [hG] at hp
      simp only [] at hp
      rcases hE : slurpDirIntoGitTree cfg staged st with ⟨st1, r1⟩
      rw [hE] at hp
      obtain ⟨h1, h2, tr, h3, _, hres⟩ := slurpDir_spec cfg staged st st1 r1 hE
      have g1 : grows st st1 := ⟨h2, ⟨[], by simp [h1]⟩, ⟨tr, h3⟩⟩
      cases r1 with
      | none => simp only [] at hp; cases hp; exact g1
      | some t =>
        simp only [] at hp
        cases hP : putObj cfg st1
            (GitObj.commit t (authorSig cfg.now) (authorSig cfg.now)
              (commitMessageFor v)) with
        | none => rw [hP] at hp; simp only [] at hp; cases hp; exact g1
        | some st2 =>
          rw [hP] at hp
          simp only [] at hp
          have g2 : grows st1 st2 := grows_of_putObj hP
          cases hC : createTag cfg st2 (tagNameFor v)
              (GitObj.commit t (authorSig cfg.now) (authorSig cfg.now)
                (commitMessageFor v))
              (authorSig cfg.now) (commitMessageFor v) with
          | none => rw [hC] at hp; simp only [] at hp; cases hp; exact grows_trans g1 g2
          | some stT =>
            rw [hC] at hp
            simp only [] at hp
            cases hp
            exact grows_trans g1 (grows_trans g2 (grows_of_createTag hC))

theorem accWritten_append (t1 : List Event) :
    ∀ (w : List GitObj) (t2 : List Event),
      accWritten w (t1 ++ t2) = accWritten (accWritten w t1) t2 := by
  induction t1 with
  | nil => intro w t2; rfl
  | cons e rest ih =>
    intro w t2
    cases e with
    | writeObj o => exact ih (o :: w) t2
    | writeTag n target => exact ih w t2

theorem processVersion_success_hasTag {cfg : Cfg} {st st' : RepoState} {v : Version}
    {h : Nat} (hp : processVersion cfg st v h = (st', none)) :
    hasTag st' (tagNameFor v) = true ∧ cfg.lookFault (tagNameFor v) = false := by
  unfold processVersion at hp
  cases hL : tagLookup cfg st (tagNameFor v) with
  | found =>
    rw [hL] at hp
    cases hp
    unfold tagLookup at hL
    split_ifs at hL with h1 h2
    exact ⟨h2, by simpa using h1⟩
  | failure =>
    rw [hL] at hp
    cases hp
  | notFound =>
    have hlf : cfg.lookFault (tagNameFor v) = false := by
      unfold tagLookup at hL
      split_ifs at hL with h1 h2
      simpa using h1
    rw [hL] at hp
    simp only [] at hp
    cases hG : cfg.gen v h with
    | none => rw [hG] at hp; cases hp
    | some staged =>
      rw [hG] at hp
      simp only [] at hp
      rcases hE : slurpDirIntoGitTree cfg staged st with ⟨st1, r1⟩
      rw [hE] at hp
      cases r1 with
      | none => simp only [] at hp; cases hp
      | some t =>
        simp only [] at hp
        cases hP : putObj cfg st1
            (GitObj.commit t (authorSig cfg.now) (authorSig cfg.now)
              (commitMessageFor v)) with
        | none => rw [hP] at hp; simp only [] at hp; cases hp
        | some st2 =>
          rw [hP] at hp
          simp only [] at hp
          cases hC : createTag cfg st2 (tagNameFor v)
              (GitObj.commit t (authorSig cfg.now) (authorSig cfg.now)
                (commitMessageFor v))
              (authorSig cfg.now) (commitMessageFor v) with
          | none => rw [hC] at hp; simp only [] at hp; cases hp
          | some stT =>
            rw [hC] at hp
            simp only [] at hp
            cases hp
            obtain ⟨hc1, _, _, _⟩ := createTag_spec hC
            exact ⟨by simp [hasTag, hc1], hlf⟩

theorem processVersion_success_char {cfg : Cfg} {st st' : RepoState} {v : Version}
    {h : Nat} (hnt : hasTag st (tagNameFor v) = false)
    (hlf : cfg.lookFault (tagNameFor v) = false)
    (hp : processVersion cfg st v h = (st', none)) :
    ∃ staged, cfg.gen v h = some staged ∧
      st'.tags = (tagNameFor v, tagObjFor cfg v staged) :: st.tags ∧
      commitFor cfg v staged ∈ st'.objects := by
  have hL : tagLookup cfg st (tagNameFor v) = .notFound := by
    simp [tagLookup, hlf, hnt]
  unfold processVersion at hp
  rw [hL] at hp
  simp only [] at hp
  cases hG : cfg.gen v h with
  | none => rw [hG] at hp; cases hp
  | some staged =>
    rw [hG] at hp
    simp only [] at hp
    rcases hE : slurpDirIntoGitTree cfg staged st with ⟨st1, r1⟩
    rw [hE] at hp
    cases r1 with
    | none => simp only [] at hp; cases hp
    | some t =>
      simp only [] at hp
      obtain ⟨h1, _, tr, _, _, hres⟩ := slurpDir_spec cfg staged st st1 (some t) hE
      obtain ⟨hteq, _, _⟩ := hres t rfl
      cases hP : putObj cfg st1
          (GitObj.commit t (authorSig cfg.now) (authorSig cfg.now)
            (commitMessageFor v)) with
      | none => rw [hP] at hp; simp only [] at hp; cases hp
      | some st2 =>
        rw [hP] at hp
        simp only [] at hp
        obtain ⟨hq1, hq2, _⟩ := putObj_spec hP
        cases hC : createTag cfg st2 (tagNameFor v)
            (GitObj.commit t (authorSig cfg.now) (authorSig cfg.now)
              (commitMessageFor v))
            (authorSig cfg.now) (commitMessageFor v) with
        | none => rw [hC] at hp; simp only [] at hp; cases hp
        | some stT =>
          rw [hC] at hp
          simp only [] at hp
          cases hp
          obtain ⟨hc1, hc2, _, _⟩ := createTag_spec hC
          refine ⟨staged, rfl, ?_, ?_⟩
          · rw [hc1, hq2, h1, hteq]
            rfl
          · rw [hc2, hq1, hteq]
            exact List.mem_cons_self _ _

theorem tagsInv_mono {st st' : RepoState} (hti : tagsInv st)
    (ht : st'.tags = st.tags) (ho : ∃ os, st'.objects = os ++ st.objects) :
    tagsInv st' := by
  intro p hp
  obtain ⟨os, hos⟩ := ho
  rw [ht] at hp
  obtain ⟨hm, hc⟩ := hti p hp
  exact ⟨by simp [hos, hm], hc⟩

theorem processVersion_trace {cfg : Cfg} {st st' : RepoState} {v : Version} {h : Nat}
    {r : Option Err} (hp : processVersion cfg st v h = (st', r)) :
    ∃ tr, st'.trace = st.trace ++ tr ∧ ∀ w, wellOrdered w tr := by
  unfold processVersion at hp
  cases hL : tagLookup cfg st (tagNameFor v) with
  | found => rw [hL] at hp; cases hp; exact ⟨[], by simp, fun w => trivial⟩
  | failure => rw [hL] at hp; cases hp; exact ⟨[], by simp, fun w => trivial⟩
  | notFound =>
    rw [hL] at hp
    simp only [] at hp
    cases hG : cfg.gen v h with
    | none => rw [hG] at hp; cases hp; exact ⟨[], by simp, fun w => trivial⟩
    | some staged =>
      rw [hG] at hp
      simp only [] at hp
      rcases hE : slurpDirIntoGitTree cfg staged st with ⟨st1, r1⟩
      rw [hE] at hp
      obtain ⟨h1, h2, tr, h3, hben, hres⟩ := slurpDir_spec cfg staged st st1 r1 hE
      cases r1 with
      | none =>
        simp only [] at hp
        cases hp
        exact ⟨tr, h3, fun w => wellOrdered_of_benign hben w⟩
      | some t =>
        simp only [] at hp
        obtain ⟨hteq, htm, _⟩ := hres t rfl
        cases hP : putObj cfg st1
            (GitObj.commit t (authorSig cfg.now) (authorSig cfg.now)
              (commitMessageFor v)) with
        | none =>
          rw [hP] at hp
          simp only [] at hp
          cases hp
          exact ⟨tr, h3, fun w => wellOrdered_of_benign hben w⟩
        | some st2 =>
          rw [hP] at hp
          simp only [] at hp
          obtain ⟨hq1, hq2, hq3⟩ := putObj_spec hP
          have hcommitOk : ∀ w, wellOrdered w
              (tr ++ [Event.writeObj
                (GitObj.commit t (authorSig cfg.now) (authorSig cfg.now)
                  (commitMessageFor v))]) := by
            intro w
            rw [wellOrdered_append]
            refine ⟨wellOrdered_of_benign hben w, ?_, trivial⟩
            intro t2 a c m heq
            have : t = t2 := by
              cases heq
              rfl
            rw [← this]
            exact mem_accWritten_of_writeObj tr w htm
          cases hC : createTag cfg st2 (tagNameFor v)
              (GitObj.commit t (authorSig cfg.now) (authorSig cfg.now)
                (commitMessageFor v))
              (authorSig cfg.now) (commitMessageFor v) with
          | none =>
            rw [hC] at hp
            simp only [] at hp
            cases hp
            refine ⟨tr ++ [Event.writeObj
                (GitObj.commit t (authorSig cfg.now) (authorSig cfg.now)
                  (commitMessageFor v))], ?_, hcommitOk⟩
            simp [hq3, h3]
          | some stT =>
            rw [hC] at hp
            simp only [] at hp
            cases hp
            obtain ⟨hc1, hc2, hc3, _⟩ := createTag_spec hC
            refine ⟨(tr ++ [Event.writeObj
                (GitObj.commit t (authorSig cfg.now) (authorSig cfg.now)
                  (commitMessageFor v))]) ++
              [Event.writeTag (tagNameFor v)
                (GitObj.commit t (authorSig cfg.now) (authorSig cfg.now)
                  (commitMessageFor v))], ?_, ?_⟩
            · simp [hc3, hq3, h3]
            · intro w
              rw [wellOrdered_append]
              refine ⟨hcommitOk w, ?_, trivial⟩
              rw [accWritten_append]
              refine ⟨?_, rfl⟩
              exact List.mem_cons_self _ _

theorem processVersion_tagsInv {cfg : Cfg} {st st' : RepoState} {v : Version} {h : Nat}
    {r : Option Err} (hp : processVersion cfg st v h = (st', r)) (hti : tagsInv st) :
    tagsInv st' := by
  unfold processVersion at hp
  cases hL : tagLookup cfg st (tagNameFor v) with
  | found => rw [hL] at hp; cases hp; exact hti
  | failure => rw [hL] at hp; cases hp; exact hti
  | notFound =>
    rw [hL] at hp
    simp only [] at hp
    cases hG : cfg.gen v h with
    | none => rw [hG] at hp; cases hp; exact hti
    | some staged =>
      rw [hG] at hp
      simp only [] at hp
      rcases hE : slurpDirIntoGitTree cfg staged st with ⟨st1, r1⟩
      rw [hE] at hp
      obtain ⟨h1, h2, tr, h3, hben, hres⟩ := slurpDir_spec cfg staged st st1 r1 hE
      have hti1 : tagsInv st1 := tagsInv_mono hti h1 h2
      cases r1 with
      | none => simp only [] at hp; cases hp; exact hti1
      | some t =>
        simp only [] at hp
        cases hP : putObj cfg st1
            (GitObj.commit t (authorSig cfg.now) (authorSig cfg.now)
              (commitMessageFor v)) with
        | none => rw [hP] at hp; simp only [] at hp; cases hp; exact hti1
        | some st2 =>
          rw [hP] at hp
          simp only [] at hp
          obtain ⟨hq1, hq2, hq3⟩ := putObj_spec hP
          have hti2 : tagsInv st2 := tagsInv_mono hti1 hq2
            ⟨[GitObj.commit t (authorSig cfg.now) (authorSig cfg.now) (commitMessageFor v)],
              by simp [hq1]⟩
          cases hC : createTag cfg st2 (tagNameFor v)
              (GitObj.commit t (authorSig cfg.now) (authorSig cfg.now)
                (commitMessageFor v))
              (authorSig cfg.now) (commitMessageFor v) with
          | none => rw [hC] at hp; simp only [] at hp; cases hp; exact hti2
          | some stT =>
            rw [hC] at hp
            simp only [] at hp
            cases hp
            obtain ⟨hc1, hc2, hc3, _⟩ := createTag_spec hC
            intro p hmem
            rw [hc1] at hmem
            rcases List.mem_cons.mp hmem with hh | hh
            · subst hh
              refine ⟨?_, rfl⟩
              rw [hc2, hq1]
              exact List.mem_cons_self _ _
            · obtain ⟨hm, hc⟩ := hti2 p hh
              exact ⟨by rw [hc2]; exact hm, hc⟩

theorem processVersion_skip {cfg : Cfg} {st : RepoState} {v : Version} {h : Nat}
    (hf : cfg.lookFault (tagNameFor v) = false) (ht : hasTag st (tagNameFor v) = true) :
    processVersion cfg st v h = (st, none) := by
  unfold processVersion
  have hl : tagLookup cfg st (tagNameFor v) = .found := by
    simp [tagLookup, hf, ht]
  rw [hl]

theorem processVersion_lookfail {cfg : Cfg} {st : RepoState} {v : Version} {h : Nat}
    (hf : cfg.lookFault (tagNameFor v) = true) :
    processVersion cfg st v h = (st, some (.lookupFailed (tagNameFor v))) := by
  unfold processVersion
  have hl : tagLookup cfg st (tagNameFor v) = .failure := by
    simp [tagLookup, hf]
  rw [hl]

theorem createStableTags_grows (cfg : Cfg) :
    ∀ (cat : List (Version × Nat)) (st : RepoState),
      grows st (createStableTags cfg st cat).1 := by
  intro cat
  induction cat with
  | nil => intro st; exact grows_refl st
  | cons p rest ih =>
    intro st
    rcases p with ⟨v, h⟩
    simp only [createStableTags]
    rcases hP : processVersion cfg st v h with ⟨st1, r1⟩
    cases r1 with
    | none =>
      simp only []
      exact grows_trans (processVersion_grows hP) (ih st1)
    | some e =>
      simp only []
      exact processVersion_grows hP

theorem createStableTags_hasTag_mono {cfg : Cfg} {cat : List (Version × Nat)}
    {st : RepoState} {n : String} (h : hasTag st n = true) :
    hasTag (createStableTags cfg st cat).1 n = true :=
  hasTag_of_grows (createStableTags_grows cfg cat st) h

theorem createStableTags_tagsInv (cfg : Cfg) :
    ∀ (cat : List (Version × Nat)) (st : RepoState), tagsInv st →
      tagsInv (createStableTags cfg st cat).1 := by
  intro cat
  induction cat with
  | nil => intro st hti; exact hti
  | cons p rest ih =>
    intro st hti
    rcases p with ⟨v, h⟩
    simp only [createStableTags]
    rcases hP : processVersion cfg st v h with ⟨st1, r1⟩
    cases r1 with
    | none =>
      simp only []
      exact ih st1 (processVersion_tagsInv hP hti)
    | some e =>
      simp only []
      exact processVersion_tagsInv hP hti

theorem createStableTags_trace (cfg : Cfg) :
    ∀ (cat : List (Version × Nat)) (st : RepoState),
      ∃ tr, (createStableTags cfg st cat).1.trace = st.trace ++ tr ∧
        ∀ w, wellOrdered w tr := by
  intro cat
  induction cat with
  | nil => intro st; exact ⟨[], by simp [createStableTags], fun w => trivial⟩
  | cons p rest ih =>
    intro st
    rcases p with ⟨v, h⟩
    simp only [createStableTags]
    rcases hP : processVersion cfg st v h with ⟨st1, r1⟩
    obtain ⟨tr1, ht1, hw1⟩ := processVersion_trace hP
    cases r1 with
    | none =>
      simp only []
      obtain ⟨tr2, ht2, hw2⟩ := ih st1
      refine ⟨tr1 ++ tr2, by simp [ht2, ht1], ?_⟩
      intro w
      rw [wellOrdered_append]
      exact ⟨hw1 w, hw2 _⟩
    | some e =>
      simp only []
      exact ⟨tr1, ht1, hw1⟩

theorem createStableTags_success_all (cfg : Cfg) :
    ∀ (cat : List (Version × Nat)) (st st1 : RepoState),
      createStableTags cfg st cat = (st1, none) →
      ∀ p ∈ cat, hasTag st1 (tagNameFor p.1) = true ∧
        cfg.lookFault (tagNameFor p.1) = false := by
  intro cat
  induction cat with
  | nil => intro st st1 hrun p hp; cases hp
  | cons q rest ih =>
    intro st st1 hrun p hp
    rcases q with ⟨v, h⟩
    simp only [createStableTags] at hrun
    rcases hP : processVersion cfg st v h with ⟨stm, r1⟩
    rw [hP] at hrun
    cases r1 with
    | some e => simp only [] at hrun; cases hrun
    | none =>
      simp only [] at hrun
      rcases List.mem_cons.mp hp with hh | hh
      · subst hh
        obtain ⟨hht, hlf⟩ := processVersion_success_hasTag hP
        refine ⟨?_, hlf⟩
        have := @createStableTags_hasTag_mono cfg rest stm (tagNameFor (v, h).1) hht
        rw [hrun] at this
        exact this
      · exact ih stm st1 hrun p hh

theorem createStableTags_skip_all (cfg : Cfg) :
    ∀ (cat : List (Version × Nat)) (st : RepoState),
      (∀ p ∈ cat, hasTag st (tagNameFor p.1) = true ∧
        cfg.lookFault (tagNameFor p.1) = false) →
      createStableTags cfg st cat = (st, none) := by
  intro cat
  induction cat with
  | nil => intro st hall; rfl
  | cons q rest ih =>
    intro st hall
    rcases q with ⟨v, h⟩
    obtain ⟨hht, hlf⟩ := hall (v, h) (List.mem_cons_self _ _)
    simp only [createStableTags]
    rw [processVersion_skip hlf hht]
    exact ih st (fun p hp => hall p (List.mem_cons_of_mem _ hp))

theorem createStableTags_append (cfg : Cfg) :
    ∀ (l1 l2 : List (Version × Nat)) (st st1 : RepoState),
      createStableTags cfg st l1 = (st1, none) →
      createStableTags cfg st (l1 ++ l2) = createStableTags cfg st1 l2 := by
  intro l1
  induction l1 with
  | nil =>
    intro l2 st st1 h
    simp only [createStableTags] at h
    cases h
    simp
  | cons q rest ih =>
    intro l2 st st1 h
    rcases q with ⟨v, hh⟩
    simp only [createStableTags] at h ⊢
    rcases hP : processVersion cfg st v hh with ⟨stm, r1⟩
    rw [hP] at h
    cases r1 with
    | some e => simp only [] at h; cases h
    | none =>
      simp only [] at h ⊢
      exact ih l2 stm st1 h

theorem pairwiseAnd {α : Type} {R S : α → α → Prop} :
    ∀ {l : List α}, l.Pairwise R → l.Pairwise S →
      l.Pairwise (fun a b => R a b ∧ S a b) := by
  intro l
  induction l with
  | nil => intro _ _; exact List.Pairwise.nil
  | cons a l ih =>
    intro hr hs
    rcases List.pairwise_cons.mp hr with ⟨hra, hrl⟩
    rcases List.pairwise_cons.mp hs with ⟨hsa, hsl⟩
    exact List.pairwise_cons.mpr ⟨fun b hb => ⟨hra b hb, hsa b hb⟩, ih hrl hsl⟩

theorem sortByName_eq_of_perm_nodup {α : Type} {l1 l2 : List (String × α)}
    (hp : l1.Perm l2) (hn : (l1.map Prod.fst).Nodup) :
    sortByName l1 = sortByName l2 := by
  have hperm : (sortByName l1).Perm (sortByName l2) :=
    (List.perm_insertionSort _ l1).trans (hp.trans (List.perm_insertionSort _ l2).symm)
  have hn1 : ((sortByName l1).map Prod.fst).Nodup := by
    have hpm : (l1.map Prod.fst).Perm ((sortByName l1).map Prod.fst) :=
      ((List.perm_insertionSort _ l1).map Prod.fst).symm
    exact hpm.nodup hn
  have hn2 : ((sortByName l2).map Prod.fst).Nodup := by
    have hpm : ((sortByName l1).map Prod.fst).Perm ((sortByName l2).map Prod.fst) :=
      hperm.map Prod.fst
    exact hpm.nodup hn1
  have hs1 : (sortByName l1).Pairwise (fun a b => entryLe a b) :=
    List.sorted_insertionSort _ l1
  have hs2 : (sortByName l2).Pairwise (fun a b => entryLe a b) :=
    List.sorted_insertionSort _ l2
  have hne1 : (sortByName l1).Pairwise (fun a b : String × α => a.1 ≠ b.1) :=
    List.pairwise_map.mp hn1
  have hne2 : (sortByName l2).Pairwise (fun a b : String × α => a.1 ≠ b.1) :=
    List.pairwise_map.mp hn2
  haveI : IsAntisymm (String × α) (fun a b => entryLe a b ∧ a.1 ≠ b.1) := by
    constructor
    rintro a b ⟨hab, hne⟩ ⟨hba, _⟩
    have hdata : a.1.data = b.1.data := charListLe_antisymm _ _ hab hba
    have : a.1 = b.1 := String.toList_inj.mp hdata
    exact absurd this hne
  exact List.eq_of_perm_of_sorted hperm (pairwiseAnd hs1 hne1) (pairwiseAnd hs2 hne2)

theorem entryHash_dir_eq_of_perm {es1 es2 : List (String × FsEntry)}
    (hp : es1.Perm es2) (hn : (es1.map Prod.fst).Nodup) :
    entryHash (.dir es1) = entryHash (.dir es2) := by
  have hs := sortByName_eq_of_perm_nodup hp hn
  simp only [entryHash]
  rw [hs]

/-- Pattern named by the spec for catalog discovery: the literal prefix
tfplugin, then a nonempty run of decimal digits, then the literal
suffix .proto. -/
def specPatternMatches (name : String) : Bool :=
  ("tfplugin".data.isPrefixOf name.data) && (".proto".data.isSuffixOf name.data) &&
    (let mid := (name.data.drop 8).take ((name.data.drop 8).length - 6)
     decide (mid ≠ []) && mid.all (fun c => c.isDigit))

theorem splitOnDot_append_of_no_dot (cs : List Char) (h : ∀ c ∈ cs, c ≠ '.')
    (ds : List Char) : splitOnDot (cs ++ '.' :: ds) = cs :: splitOnDot ds := by
  induction cs with
  | nil => simp [splitOnDot]
  | cons c rest ih =>
    have hc : c ≠ '.' := h c (List.mem_cons_self c rest)
    have hrest : ∀ c2 ∈ rest, c2 ≠ '.' := fun c2 hm => h c2 (List.mem_cons_of_mem c hm)
    simp only [List.cons_append, splitOnDot, if_neg hc, List.append_eq]
    rw [ih hrest]

theorem protoEntryVersion_of_specPattern {name : String}
    (h : specPatternMatches name = true) :
    ∃ ma, protoEntryVersion name = some ⟨ma, 0, 0⟩ := by
  unfold specPatternMatches at h
  simp only [Bool.and_eq_true, decide_eq_true_eq, List.all_eq_true] at h
  obtain ⟨⟨hpre, hsuf⟩, hne, hdig⟩ := h
  unfold protoEntryVersion
  rw [if_pos (by simp [hpre, hsuf])]
  set mid := (name.data.drop 8).take ((name.data.drop 8).length - 6) with hmid
  have hnodot : ∀ c ∈ mid, c ≠ '.' := by
    intro c hc he
    have := hdig c hc
    rw [he] at this
    simp at this
  unfold parseVersion
  have hsplit : splitOnDot (String.mk (mid ++ ".0".data)).data = mid :: [['0']] := by
    show splitOnDot (mid ++ '.' :: ['0']) = mid :: [['0']]
    rw [splitOnDot_append_of_no_dot mid hnodot]
    rfl
  rw [hsplit]
  have hmidnat : ∃ n, digitsToNat? mid = some n := by
    refine ⟨mid.foldl (fun a c => a * 10 + (c.toNat - 48)) 0, ?_⟩
    unfold digitsToNat?
    rw [if_pos ⟨hne, hdig⟩]
  obtain ⟨n, hn⟩ := hmidnat
  refine ⟨n, ?_⟩
  simp [hn]
  have : digitsToNat? ['0'] = some 0 := by decide
  simp [this]

theorem mem_mapInsert {acc : List (Version × Nat)} {v v2 : Version} {h h2 : Nat}
    (hm : (v, h) ∈ mapInsert acc v2 h2) :
    (v, h) ∈ acc ∨ (v = v2 ∧ h = h2) := by
  unfold mapInsert at hm
  rcases List.mem_append.mp hm with hh | hh
  · exact Or.inl (List.mem_of_mem_filter hh)
  · simp only [List.mem_singleton, Prod.mk.injEq] at hh
    exact Or.inr hh

theorem readProto_fold_mem :
    ∀ (l : List (String × Nat)) (acc : List (Version × Nat)) (v : Version) (h : Nat),
      (v, h) ∈ l.foldl catalogStep acc →
      (v, h) ∈ acc ∨ ∃ name, (name, h) ∈ l ∧ protoEntryVersion name = some v := by
  intro l
  induction l with
  | nil => intro acc v h hm; exact Or.inl hm
  | cons e rest ih =>
    intro acc v h hm
    rcases ih (catalogStep acc e) v h hm with hh | hh
    · unfold catalogStep at hh
      rcases hE : protoEntryVersion e.1 with _ | v2
      · rw [hE] at hh
        exact Or.inl hh
      · rw [hE] at hh
        rcases mem_mapInsert hh with h3 | h3
        · exact Or.inl h3
        · refine Or.inr ⟨e.1, ?_, by rw [hE, h3.1]⟩
          rw [h3.2]
          exact List.mem_cons_self e rest
    · obtain ⟨name, hmm, hpv⟩ := hh
      exact Or.inr ⟨name, List.mem_cons_of_mem e hmm, hpv⟩

/-- Message extractor on commit objects. -/
def commitMsgOf : GitObj → Option String
  | .commit _ _ _ m => some m
  | _ => none

/-- Tree extractor on commit objects. -/
def treeOfCommit : GitObj → Option GitObj
  | .commit t _ _ _ => some t
  | _ => none

/-- Empty target repository. -/
def st0 : RepoState := ⟨[], [], []⟩

/-- Generation collaborator producing an empty staged directory for
every version. -/
def genEmpty : Version → Nat → Option (List (String × FsEntry)) := fun _ _ => some []

/-- Fault free tag oracle. -/
def noFaultS : String → Bool := fun _ => false

/-- Fault free object write oracle. -/
def noFaultO : GitObj → Bool := fun _ => false

/-- Fault free run environment at wall clock time zero. -/
def cfg0 : Cfg := ⟨genEmpty, 0, noFaultS, noFaultO, noFaultS⟩

/-- Fault free run environment at wall clock time one, otherwise equal
to cfg0. -/
def cfgT1 : Cfg := ⟨genEmpty, 1, noFaultS, noFaultO, noFaultS⟩

/-- Environment whose generation collaborator fails for version 5.1 and
succeeds with an empty staged directory for every other version. -/
def cfgGenFail51 : Cfg :=
  ⟨fun v _ => if v = ⟨5, 1, 0⟩ then none else some [], 0, noFaultS, noFaultO, noFaultS⟩

/-- Environment whose tag lookup fails at the storage level for the
name v5.0.0. -/
def cfgLookFault : Cfg := ⟨genEmpty, 0, fun n => n == "v5.0.0", noFaultO, noFaultS⟩

/-- Commit created when releasing version 5.0 from an empty staged
directory at time zero. -/
def demoCommit : GitObj :=
  GitObj.commit (GitObj.tree []) (authorSig 0) (authorSig 0) (commitMessageFor ⟨5, 0, 0⟩)

/-- Repository state after releasing version 5.0 from the empty
repository at time zero. -/
def demoState : RepoState :=
  ⟨[demoCommit, GitObj.tree []],
   [(tagNameFor ⟨5, 0, 0⟩, ⟨demoCommit, authorSig 0, commitMessageFor ⟨5, 0, 0⟩⟩)],
   [Event.writeObj (GitObj.tree []), Event.writeObj demoCommit,
    Event.writeTag (tagNameFor ⟨5, 0, 0⟩) demoCommit]⟩

/-- Repository that already holds the release tag v5.0.0. -/
def st50 : RepoState :=
  ⟨[demoCommit],
   [(tagNameFor ⟨5, 0, 0⟩, ⟨demoCommit, authorSig 0, commitMessageFor ⟨5, 0, 0⟩⟩)],
   []⟩

/-- Commit created when releasing version 5.0 from an empty staged
directory at time one. -/
def demoCommitT1 : GitObj :=
  GitObj.commit (GitObj.tree []) (authorSig 1) (authorSig 1) (commitMessageFor ⟨5, 0, 0⟩)

/-- Repository state after releasing version 5.0 from the empty
repository at time one. -/
def demoStateT1 : RepoState :=
  ⟨[demoCommitT1, GitObj.tree []],
   [(tagNameFor ⟨5, 0, 0⟩, ⟨demoCommitT1, authorSig 1, commitMessageFor ⟨5, 0, 0⟩⟩)],
   [Event.writeObj (GitObj.tree []), Event.writeObj demoCommitT1,
    Event.writeTag (tagNameFor ⟨5, 0, 0⟩) demoCommitT1]⟩

/-- Commit created when releasing version 5.1 from an empty staged
directory at time zero. -/
def demoCommit51 : GitObj :=
  GitObj.commit (GitObj.tree []) (authorSig 0) (authorSig 0) (commitMessageFor ⟨5, 1, 0⟩)

/-- Repository state after releasing version 5.1 on top of st50. -/
def demoState51 : RepoState :=
  ⟨[demoCommit51, GitObj.tree [], demoCommit],
   [(tagNameFor ⟨5, 1, 0⟩, ⟨demoCommit51, authorSig 0, commitMessageFor ⟨5, 1, 0⟩⟩),
    (tagNameFor ⟨5, 0, 0⟩, ⟨demoCommit, authorSig 0, commitMessageFor ⟨5, 0, 0⟩⟩)],
   [Event.writeObj (GitObj.tree []), Event.writeObj demoCommit51,
    Event.writeTag (tagNameFor ⟨5, 1, 0⟩) demoCommit51]⟩

theorem processVersion_demo : processVersion cfg0 st0 ⟨5, 0, 0⟩ 0 = (demoState, none) := by
  simp [processVersion, tagLookup, hasTag, cfg0, st0, genEmpty, noFaultS, noFaultO,
    slurpDirIntoGitTree, slurpEntries, sortByName, List.insertionSort, putObj, createTag,
    demoState, demoCommit]

theorem processVersion_demoT1 :
    processVersion cfgT1 st0 ⟨5, 0, 0⟩ 0 = (demoStateT1, none) := by
  simp [processVersion, tagLookup, hasTag, cfgT1, st0, genEmpty, noFaultS, noFaultO,
    slurpDirIntoGitTree, slurpEntries, sortByName, List.insertionSort, putObj, createTag,
    demoStateT1, demoCommitT1]

theorem processVersion_genFail51 :
    processVersion cfgGenFail51 st0 ⟨5, 1, 0⟩ 0 =
      (st0, some (Err.genFailed ⟨5, 1, 0⟩)) := by
  simp [processVersion, tagLookup, hasTag, cfgGenFail51, st0, noFaultS, noFaultO]

theorem createStableTags_demo :
    createStableTags cfg0 st0 [(⟨5, 0, 0⟩, 0)] = (demoState, none) := by
  simp only [createStableTags, processVersion_demo]

theorem createStableTags_demo51 :
    createStableTags cfg0 st50 [(⟨5, 0, 0⟩, 0), (⟨5, 1, 0⟩, 1)] =
      (demoState51, none) := by
  have hskip : processVersion cfg0 st50 ⟨5, 0, 0⟩ 0 = (st50, none) :=
    processVersion_skip rfl (by decide)
  have hne : (tagNameFor ⟨5, 0, 0⟩ == tagNameFor ⟨5, 1, 0⟩) = false := by decide
  have hrel : processVersion cfg0 st50 ⟨5, 1, 0⟩ 1 = (demoState51, none) := by
    simp [processVersion, tagLookup, hasTag, cfg0, st50, genEmpty, noFaultS, noFaultO,
      slurpDirIntoGitTree, slurpEntries, sortByName, List.insertionSort, putObj,
      createTag, demoState51, demoCommit51, hne]
  simp only [createStableTags, hskip, hrel]

/-- C9: version parsing and ordering, modelled from the spec for the
external go-versions library: the string 5 is rejected (no minor
component), 5.2 parses with the build defaulting to 0, 5.2.1 parses to
the full triple, and the lexicographic component ordering puts 5.2
before 5.3 before 6.0. -/
theorem spec_c9_version_parsing :
    parseVersion "5" = none ∧
    parseVersion "5.2" = some ⟨5, 2, 0⟩ ∧
    parseVersion "5.2.1" = some ⟨5, 2, 1⟩ ∧
    Version.lt ⟨5, 2, 0⟩ ⟨5, 3, 0⟩ = true ∧
    Version.lt ⟨5, 3, 0⟩ ⟨6, 0, 0⟩ = true :=
  ⟨by decide, by decide, by decide, by decide, by decide⟩

/-- C3 counterexample: synthesizing version 5.0 produces a release whose
tag and commit message is the string
Auto-generated Go module for Terraform plugin protocol v5.0, which is
not the string Auto-generated module for protocol v5.0 required by the
claim. -/
theorem spec_c3_counterexample :
    ((processVersion cfg0 st0 ⟨5, 0, 0⟩ 0).1.tags.lookup "v5.0.0").map TagObj.message =
      some "Auto-generated Go module for Terraform plugin protocol v5.0" ∧
    ((processVersion cfg0 st0 ⟨5, 0, 0⟩ 0).1.tags.lookup "v5.0.0").map
        (fun tg => commitMsgOf tg.target) =
      some (some "Auto-generated Go module for Terraform plugin protocol v5.0") ∧
    "Auto-generated Go module for Terraform plugin protocol v5.0" ≠
      "Auto-generated module for protocol v5.0" := by
  rw [processVersion_demo]
  refine ⟨?_, ?_, by decide⟩
  · have : (demoState.tags.lookup "v5.0.0").map TagObj.message =
        some (commitMessageFor ⟨5, 0, 0⟩) := by
      have hname : ("v5.0.0" == tagNameFor ⟨5, 0, 0⟩) = true := by decide
      simp [demoState, List.lookup, hname]
    rw [this]
    decide
  · have : (demoState.tags.lookup "v5.0.0").map (fun tg => commitMsgOf tg.target) =
        some (some (commitMessageFor ⟨5, 0, 0⟩)) := by
      have hname : ("v5.0.0" == tagNameFor ⟨5, 0, 0⟩) = true := by decide
      simp [demoState, List.lookup, hname, demoCommit, commitMsgOf]
    rw [this]
    decide

/-- C3 amended: for every version released by a successful synthesis
step whose ledger gate was open, the created tag and its target commit
both carry the message
Auto-generated Go module for Terraform plugin protocol v(major).(minor),
bit-exact. -/
theorem spec_c3_commit_message (cfg : Cfg) (st st1 : RepoState) (v : Version) (h : Nat)
    (hnt : hasTag st (tagNameFor v) = false)
    (hlf : cfg.lookFault (tagNameFor v) = false)
    (hp : processVersion cfg st v h = (st1, none)) :
    ∃ tg, st1.tags.lookup (tagNameFor v) = some tg ∧
      tg.message =
        "Auto-generated Go module for Terraform plugin protocol v" ++
          toString v.major ++ "." ++ toString v.minor ∧
      commitMsgOf tg.target =
        some ("Auto-generated Go module for Terraform plugin protocol v" ++
          toString v.major ++ "." ++ toString v.minor) := by
  obtain ⟨staged, hgen, htags, _⟩ := processVersion_success_char hnt hlf hp
  refine ⟨tagObjFor cfg v staged, ?_, rfl, rfl⟩
  rw [htags]
  simp [List.lookup]

/-- C3 amended witness: the commit message property at version 5.0 in a
fault free run from the empty repository. -/
theorem spec_c3_commit_message_witness :
    ∃ tg, demoState.tags.lookup (tagNameFor ⟨5, 0, 0⟩) = some tg ∧
      tg.message =
        "Auto-generated Go module for Terraform plugin protocol v" ++
          toString (5 : Nat) ++ "." ++ toString (0 : Nat) ∧
      commitMsgOf tg.target =
        some ("Auto-generated Go module for Terraform plugin protocol v" ++
          toString (5 : Nat) ++ "." ++ toString (0 : Nat)) := by
  exact spec_c3_commit_message cfg0 st0 demoState ⟨5, 0, 0⟩ 0 rfl rfl processVersion_demo

/-- C8 counterexample: the entry name tfplugin5.1.proto does not match
the pattern tfplugin(digits).proto, yet discovery yields a catalog entry
for it, version 5.1.0 mapped to its blob, so the catalog is not given
exactly by that pattern. -/
theorem spec_c8_counterexample :
    specPatternMatches "tfplugin5.1.proto" = false ∧
    readProtoVersionBlobRefs [("tfplugin5.1.proto", 7)] = [(⟨5, 1, 0⟩, 7)] :=
  ⟨by decide, by decide⟩

/-- C8 amended: discovery keeps exactly the entries whose name has the
tfplugin prefix and the .proto suffix and whose middle part, with a
synthetic .0 appended, parses as a Version; this is a superset of the
digits-only pattern (every digits-only name yields an entry with minor
and build zero), and the concrete directory with tfplugin5.proto,
README.md and tfplugin.proto yields exactly the one entry 5.0. -/
theorem spec_c8_discovery (entries : List (String × Nat)) (v : Version) (h : Nat) :
    ((v, h) ∈ readProtoVersionBlobRefs entries →
      ∃ name, (name, h) ∈ entries ∧ protoEntryVersion name = some v) ∧
    (∀ name, specPatternMatches name = true →
      ∃ ma, protoEntryVersion name = some ⟨ma, 0, 0⟩) ∧
    (∀ a b c : Nat,
      readProtoVersionBlobRefs
        [("tfplugin5.proto", a), ("README.md", b), ("tfplugin.proto", c)] =
        [(⟨5, 0, 0⟩, a)]) := by
  refine ⟨?_, ?_, ?_⟩
  · intro hm
    rcases readProto_fold_mem entries [] v h hm with hh | hh
    · cases hh
    · exact hh
  · intro name hname
    exact protoEntryVersion_of_specPattern hname
  · intro a b c
    have p1 : protoEntryVersion "tfplugin5.proto" = some ⟨5, 0, 0⟩ := by decide
    have p2 : protoEntryVersion "README.md" = none := by decide
    have p3 : protoEntryVersion "tfplugin.proto" = none := by decide
    simp [readProtoVersionBlobRefs, catalogStep, p1, p2, p3, mapInsert]

/-- C8 amended witness: the catalog over the singleton directory with
tfplugin5.proto contains version 5.0, and the membership direction of
the amended claim recovers the entry name. -/
theorem spec_c8_discovery_witness :
    ∃ name, (name, (11 : Nat)) ∈ [("tfplugin5.proto", (11 : Nat))] ∧
      protoEntryVersion name = some ⟨5, 0, 0⟩ := by
  have hm : ((⟨5, 0, 0⟩ : Version), (11 : Nat)) ∈
      readProtoVersionBlobRefs [("tfplugin5.proto", 11)] := by decide
  exact (spec_c8_discovery [("tfplugin5.proto", 11)] ⟨5, 0, 0⟩ 11).1 hm

/-- C1: idempotency of synthesis. If a run over a catalog succeeds, a
second run over the same catalog from the resulting state is a no-op:
every catalog version now has its tag, so every version is skipped and
no commit, tag or trace event is added. In particular, for the catalog
with versions 5.0 and 5.1 against a ledger already holding tag v5.0.0,
synthesis succeeds and creates exactly one new release, v5.1.0. -/
theorem spec_c1_idempotent (cfg : Cfg) (st st1 : RepoState) (cat : List (Version × Nat))
    (h1 : createStableTags cfg st cat = (st1, none)) :
    createStableTags cfg st1 cat = (st1, none) ∧
    ((createStableTags cfg0 st50 [(⟨5, 0, 0⟩, 0), (⟨5, 1, 0⟩, 1)]).2 = none ∧
      (createStableTags cfg0 st50 [(⟨5, 0, 0⟩, 0), (⟨5, 1, 0⟩, 1)]).1.tags.length =
        st50.tags.length + 1 ∧
      hasTag (createStableTags cfg0 st50 [(⟨5, 0, 0⟩, 0), (⟨5, 1, 0⟩, 1)]).1 "v5.1.0" = true ∧
      hasTag st50 "v5.1.0" = false) := by
  refine ⟨createStableTags_skip_all cfg cat st1
    (createStableTags_success_all cfg cat st st1 h1), ?_, ?_, ?_, by decide⟩
  · rw [createStableTags_demo51]
  · rw [createStableTags_demo51]
    decide
  · rw [createStableTags_demo51]
    decide

/-- C1 witness: a fault free release of version 5.0 from the empty
repository, followed by a second run over the same catalog, which
changes nothing. -/
theorem spec_c1_idempotent_witness :
    createStableTags cfg0 demoState [(⟨5, 0, 0⟩, 0)] = (demoState, none) := by
  exact (spec_c1_idempotent cfg0 st0 demoState [(⟨5, 0, 0⟩, 0)] createStableTags_demo).1

/-- C2 counterexample: with a generation collaborator that fails for
version 5.1 and succeeds for version 5.2, a run over the catalog with
5.1 iterated first aborts at 5.1 with its generation error and never
produces the release v5.2.0, so the succeeding version is not
isolated from the failure. -/
theorem spec_c2_counterexample :
    (createStableTags cfgGenFail51 st0 [(⟨5, 1, 0⟩, 0), (⟨5, 2, 0⟩, 1)]).2 =
      some (Err.genFailed ⟨5, 1, 0⟩) ∧
    hasTag (createStableTags cfgGenFail51 st0
      [(⟨5, 1, 0⟩, 0), (⟨5, 2, 0⟩, 1)]).1 "v5.2.0" = false := by
  have hrun : createStableTags cfgGenFail51 st0 [(⟨5, 1, 0⟩, 0), (⟨5, 2, 0⟩, 1)] =
      (st0, some (Err.genFailed ⟨5, 1, 0⟩)) := by
    simp only [createStableTags, processVersion_genFail51]
  rw [hrun]
  exact ⟨rfl, rfl⟩

/-- C2 amended: a per-version error aborts the whole run at once: the
run returns that error with the state reached, so versions later in
iteration order are not processed; every release present when the
failing version started, including those created earlier in the same
run, remains in the repository. -/
theorem spec_c2_abort_on_error (cfg : Cfg) (st st1 : RepoState) (v : Version) (h : Nat)
    (e : Err) (rest : List (Version × Nat))
    (hfail : processVersion cfg st v h = (st1, some e)) :
    createStableTags cfg st ((v, h) :: rest) = (st1, some e) ∧
    ∀ n, hasTag st n = true → hasTag st1 n = true := by
  constructor
  · simp only [createStableTags]
    rw [hfail]
  · intro n hn
    exact hasTag_of_grows (processVersion_grows hfail) hn

/-- C2 amended witness: the aborting run at the concrete failing
environment for version 5.1. -/
theorem spec_c2_abort_on_error_witness :
    createStableTags cfgGenFail51 st0 [(⟨5, 1, 0⟩, 0), (⟨5, 2, 0⟩, 1)] =
      (st0, some (Err.genFailed ⟨5, 1, 0⟩)) := by
  exact (spec_c2_abort_on_error cfgGenFail51 st0 st0 ⟨5, 1, 0⟩ 0
    (Err.genFailed ⟨5, 1, 0⟩) [(⟨5, 2, 0⟩, 1)] processVersion_genFail51).1

/-- C4 counterexample: two runs over byte-identical generated file sets
(the same generation collaborator) at wall clock times zero and one
give tags for v5.0.0 whose commit objects differ, because the commit
embeds the run timestamp; so the commit and tag objects built by
synthesis are not identical across runs. -/
theorem spec_c4_counterexample :
    cfg0.gen = cfgT1.gen ∧
    ((processVersion cfg0 st0 ⟨5, 0, 0⟩ 0).1.tags.lookup "v5.0.0").map TagObj.target ≠
      ((processVersion cfgT1 st0 ⟨5, 0, 0⟩ 0).1.tags.lookup "v5.0.0").map TagObj.target := by
  refine ⟨rfl, ?_⟩
  rw [processVersion_demo, processVersion_demoT1]
  have hname : ("v5.0.0" == tagNameFor ⟨5, 0, 0⟩) = true := by decide
  simp [demoState, demoStateT1, List.lookup, hname, demoCommit, demoCommitT1, authorSig]

/-- C4 amended: for one version and byte-identical generated file sets,
the tree object built by synthesis is identical across runs; the commit
and tag objects coincide exactly when the wall clock timestamps of the
runs coincide, since the commit embeds the run time; duplicate releases
are nevertheless prevented by the tag-name gate. -/
theorem spec_c4_deterministic_objects (cfg1 cfg2 : Cfg) (st1 st2 st1' st2' : RepoState)
    (v : Version) (h : Nat) (staged : List (String × FsEntry))
    (hg1 : cfg1.gen v h = some staged) (hg2 : cfg2.gen v h = some staged)
    (hnt1 : hasTag st1 (tagNameFor v) = false)
    (hlf1 : cfg1.lookFault (tagNameFor v) = false)
    (hnt2 : hasTag st2 (tagNameFor v) = false)
    (hlf2 : cfg2.lookFault (tagNameFor v) = false)
    (hp1 : processVersion cfg1 st1 v h = (st1', none))
    (hp2 : processVersion cfg2 st2 v h = (st2', none)) :
    ∃ tg1 tg2, st1'.tags.lookup (tagNameFor v) = some tg1 ∧
      st2'.tags.lookup (tagNameFor v) = some tg2 ∧
      treeOfCommit tg1.target = some (entryHash (.dir staged)) ∧
      treeOfCommit tg2.target = some (entryHash (.dir staged)) ∧
      (cfg1.now = cfg2.now → tg1 = tg2) := by
  obtain ⟨s1, hgen1, ht1, _⟩ := processVersion_success_char hnt1 hlf1 hp1
  obtain ⟨s2, hgen2, ht2, _⟩ := processVersion_success_char hnt2 hlf2 hp2
  have hs1 : s1 = staged := Option.some.inj (hgen1.symm.trans hg1)
  have hs2 : s2 = staged := Option.some.inj (hgen2.symm.trans hg2)
  rw [hs1] at ht1
  rw [hs2] at ht2
  refine ⟨tagObjFor cfg1 v staged, tagObjFor cfg2 v staged, ?_, ?_, rfl, rfl, ?_⟩
  · rw [ht1]
    simp [List.lookup]
  · rw [ht2]
    simp [List.lookup]
  · intro hnow
    simp [tagObjFor, commitFor, authorSig, hnow]

/-- C4 amended witness: applying the determinism statement to the same
fault free run twice gives equal tag objects. -/
theorem spec_c4_deterministic_objects_witness :
    ∃ tg1 tg2, demoState.tags.lookup (tagNameFor ⟨5, 0, 0⟩) = some tg1 ∧
      demoState.tags.lookup (tagNameFor ⟨5, 0, 0⟩) = some tg2 ∧
      treeOfCommit tg1.target = some (entryHash (.dir [])) ∧
      treeOfCommit tg2.target = some (entryHash (.dir [])) ∧
      (cfg0.now = cfg0.now → tg1 = tg2) := by
  exact spec_c4_deterministic_objects cfg0 cfg0 st0 st0 demoState demoState ⟨5, 0, 0⟩ 0 []
    rfl rfl rfl rfl rfl rfl processVersion_demo processVersion_demo

/-- C5: deterministic tree addressing. Building the object tree from two
byte-identical staged directories that list the same entries in
different orders (a permutation, with directory names unique as on any
filesystem) yields the same root hash in any two runs, from any two
repository states and environments, because the entries are sorted by
name before hashing. -/
theorem spec_c5_deterministic_tree (cfg1 cfg2 : Cfg) (st1 st2 : RepoState)
    (es1 es2 : List (String × FsEntry)) (t1 t2 : GitObj)
    (hperm : es1.Perm es2) (hnodup : (es1.map Prod.fst).Nodup)
    (h1 : (slurpDirIntoGitTree cfg1 es1 st1).2 = some t1)
    (h2 : (slurpDirIntoGitTree cfg2 es2 st2).2 = some t2) :
    t1 = t2 := by
  rcases hE1 : slurpDirIntoGitTree cfg1 es1 st1 with ⟨s1, r1⟩
  rw [hE1] at h1
  rcases hE2 : slurpDirIntoGitTree cfg2 es2 st2 with ⟨s2, r2⟩
  rw [hE2] at h2
  simp only [] at h1 h2
  subst h1
  subst h2
  obtain ⟨_, _, tr1, _, _, hres1⟩ := slurpDir_spec cfg1 es1 st1 s1 (some t1) hE1
  obtain ⟨_, _, tr2, _, _, hres2⟩ := slurpDir_spec cfg2 es2 st2 s2 (some t2) hE2
  obtain ⟨he1, _, _⟩ := hres1 t1 rfl
  obtain ⟨he2, _, _⟩ := hres2 t2 rfl
  rw [he1, he2]
  exact entryHash_dir_eq_of_perm hperm hnodup

/-- C5 witness: the same two-file directory enumerated in the two
possible orders builds the same root tree. -/
theorem spec_c5_deterministic_tree_witness :
    (slurpDirIntoGitTree cfg0
      [("b.txt", FsEntry.file false [1]), ("a.txt", FsEntry.file false [2])] st0).2 =
    (slurpDirIntoGitTree cfg0
      [("a.txt", FsEntry.file false [2]), ("b.txt", FsEntry.file false [1])] st0).2 := by
  obtain ⟨s1, e1⟩ := slurpDir_noFault cfg0 (fun o => rfl)
    [("b.txt", FsEntry.file false [1]), ("a.txt", FsEntry.file false [2])] st0
  obtain ⟨s2, e2⟩ := slurpDir_noFault cfg0 (fun o => rfl)
    [("a.txt", FsEntry.file false [2]), ("b.txt", FsEntry.file false [1])] st0
  have p1 : (slurpDirIntoGitTree cfg0
      [("b.txt", FsEntry.file false [1]), ("a.txt", FsEntry.file false [2])] st0).2 =
      some (entryHash (.dir [("b.txt", FsEntry.file false [1]),
        ("a.txt", FsEntry.file false [2])])) := by rw [e1]
  have p2 : (slurpDirIntoGitTree cfg0
      [("a.txt", FsEntry.file false [2]), ("b.txt", FsEntry.file false [1])] st0).2 =
      some (entryHash (.dir [("a.txt", FsEntry.file false [2]),
        ("b.txt", FsEntry.file false [1])])) := by rw [e2]
  have heq := spec_c5_deterministic_tree cfg0 cfg0 st0 st0
    [("b.txt", FsEntry.file false [1]), ("a.txt", FsEntry.file false [2])]
    [("a.txt", FsEntry.file false [2]), ("b.txt", FsEntry.file false [1])]
    (entryHash (.dir [("b.txt", FsEntry.file false [1]),
      ("a.txt", FsEntry.file false [2])]))
    (entryHash (.dir [("a.txt", FsEntry.file false [2]),
      ("b.txt", FsEntry.file false [1])]))
    (List.Perm.swap ("a.txt", FsEntry.file false [2]) ("b.txt", FsEntry.file false [1]) [])
    (by decide) p1 p2
  rw [p1, p2, heq]

/-- C6: write ordering safety. Over any whole run from a repository with
an empty trace whose tags all point at stored commits, the final state
still has every tag pointing at a stored commit, and the chronological
write trace is well ordered: every commit write follows the write of
its tree and every tag write follows the write of its target commit, so
no failure at any step leaves a tag referencing a commit absent from
the object store. -/
theorem spec_c6_write_order (cfg : Cfg) (st st1 : RepoState) (cat : List (Version × Nat))
    (r : Option Err) (hti : tagsInv st) (htr : st.trace = [])
    (hrun : createStableTags cfg st cat = (st1, r)) :
    tagsInv st1 ∧ wellOrdered [] st1.trace := by
  constructor
  · have h1 := createStableTags_tagsInv cfg cat st hti
    rw [hrun] at h1
    exact h1
  · obtain ⟨tr, htrace, hw⟩ := createStableTags_trace cfg cat st
    rw [hrun] at htrace
    have : st1.trace = tr := by simpa [htr] using htrace
    rw [this]
    exact hw []

/-- C6 witness: the fault free release of version 5.0 from the empty
repository keeps the tag integrity invariant and a well ordered trace. -/
theorem spec_c6_write_order_witness :
    tagsInv demoState ∧ wellOrdered [] demoState.trace := by
  exact spec_c6_write_order cfg0 st0 demoState [(⟨5, 0, 0⟩, 0)] none
    (fun p hp => absurd hp (by simp [st0])) rfl createStableTags_demo

/-- C7: ledger error discrimination. A storage level failure of the tag
lookup aborts the run at once with the distinct lookup error,
writing nothing; a not-found lookup result instead lets the version
proceed: the step is never the silent skip, and if it succeeds the tag
has been created. -/
theorem spec_c7_ledger_errors (cfg : Cfg) (st : RepoState) (v : Version) (h : Nat)
    (rest : List (Version × Nat)) :
    (cfg.lookFault (tagNameFor v) = true →
      createStableTags cfg st ((v, h) :: rest) =
        (st, some (Err.lookupFailed (tagNameFor v)))) ∧
    (tagLookup cfg st (tagNameFor v) = .notFound →
      processVersion cfg st v h ≠ (st, none) ∧
      ∀ st1, processVersion cfg st v h = (st1, none) →
        hasTag st1 (tagNameFor v) = true) := by
  constructor
  · intro hf
    simp only [createStableTags]
    rw [processVersion_lookfail hf]
  · intro hL
    have hpair : hasTag st (tagNameFor v) = false ∧
        cfg.lookFault (tagNameFor v) = false := by
      unfold tagLookup at hL
      split_ifs at hL with h1 h2
      exact ⟨by simpa using h2, by simpa using h1⟩
    constructor
    · intro hcontra
      obtain ⟨staged, _, htags, _⟩ :=
        processVersion_success_char hpair.1 hpair.2 hcontra
      have := congrArg List.length htags
      simp at this
    · intro st1 hp
      exact (processVersion_success_hasTag hp).1

/-- C7 witness: the run aborted by the faulty lookup for v5.0.0, and
the open gate leading to a created tag, at concrete inputs. -/
theorem spec_c7_ledger_errors_witness :
    createStableTags cfgLookFault st0 [(⟨5, 0, 0⟩, 0)] =
      (st0, some (Err.lookupFailed (tagNameFor ⟨5, 0, 0⟩))) ∧
    hasTag demoState (tagNameFor ⟨5, 0, 0⟩) = true := by
  constructor
  · exact (spec_c7_ledger_errors cfgLookFault st0 ⟨5, 0, 0⟩ 0 []).1 (by decide)
  · exact ((spec_c7_ledger_errors cfg0 st0 ⟨5, 0, 0⟩ 0 []).2 rfl).2 demoState
      processVersion_demo

/-- C10: no rollback on abort. Whatever happens in the remainder of a
run, every object and tag present after a successful prefix of the
catalog is still present in the final state of the whole run, error or
not: the error return performs no rollback of previously created
releases. -/
theorem spec_c10_no_rollback (cfg : Cfg) (st st1 : RepoState)
    (l1 l2 : List (Version × Nat)) (h1 : createStableTags cfg st l1 = (st1, none)) :
    (∀ o ∈ st1.objects, o ∈ (createStableTags cfg st (l1 ++ l2)).1.objects) ∧
    (∀ p ∈ st1.tags, p ∈ (createStableTags cfg st (l1 ++ l2)).1.tags) := by
  rw [createStableTags_append cfg l1 l2 st st1 h1]
  obtain ⟨⟨os, ho⟩, ⟨ts, ht⟩, _⟩ := createStableTags_grows cfg l2 st1
  exact ⟨fun o hm => by simp [ho, hm], fun p hm => by simp [ht, hm]⟩

/-- C10 witness: after releasing 5.0, a continuation whose generation
fails for 5.1 aborts, yet the 5.0 commit and tag remain persisted. -/
theorem spec_c10_no_rollback_witness :
    (∀ o ∈ demoState.objects,
      o ∈ (createStableTags cfg0 st0
        ([(⟨5, 0, 0⟩, 0)] ++ [(⟨5, 1, 0⟩, 1)])).1.objects) ∧
    (∀ p ∈ demoState.tags,
      p ∈ (createStableTags cfg0 st0
        ([(⟨5, 0, 0⟩, 0)] ++ [(⟨5, 1, 0⟩, 1)])).1.tags) :=
  spec_c10_no_rollback cfg0 st0 demoState
    [(⟨5, 0, 0⟩, 0)] [(⟨5, 1, 0⟩, 1)] createStableTags_demo
